import Mathlib

/-!
Shallow embedding of `src/backend/src/executors/aaa.rs` (the `AaaExecutor`
log-normalization adapter) and proofs of the specification claims about it.

Strings are modelled by Lean `String` (a structure wrapping `List Char`);
Rust byte-oriented operations on valid UTF-8 (`find`, `starts_with`,
`contains`, slicing after an ASCII delimiter) coincide with the
character-level operations used here.
-/

set_option autoImplicit false
set_option linter.unusedVariables false
set_option maxRecDepth 8192

namespace Aaa

/-! ### Rust string primitives -/

/-- Unicode `White_Space` property, as used by Rust `char::is_whitespace`. -/
def isRustWhitespace (c : Char) : Bool :=
  let n := c.toNat
  n = 0x20 || (0x9 ≤ n && n ≤ 0xd) || n = 0x85 || n = 0xa0 || n = 0x1680 ||
  (0x2000 ≤ n && n ≤ 0x200a) || n = 0x2028 || n = 0x2029 || n = 0x202f ||
  n = 0x205f || n = 0x3000

/-- Model of Rust `str::trim` on a character list: drop whitespace from
both ends. -/
def rustTrimL (l : List Char) : List Char :=
  ((l.dropWhile isRustWhitespace).reverse.dropWhile isRustWhitespace).reverse

/-- Model of Rust `str::trim`. -/
def rustTrim (s : String) : String :=
  String.mk (rustTrimL s.data)

/-- Split a character list on a separator character, keeping empty pieces
(the result always has one more piece than there are separators). -/
def splitOnChar (sep : Char) : List Char → List (List Char)
  | [] => [[]]
  | c :: cs =>
    if c = sep then [] :: splitOnChar sep cs
    else
      match splitOnChar sep cs with
      | [] => [[c]]
      | l :: ls => (c :: l) :: ls

/-- Drop a single carriage return at the end of a newline-terminated line,
as Rust `str::lines` does for a `\r\n` terminator. -/
def stripCR (l : List Char) : List Char :=
  if l.getLast? = some '\r' then l.dropLast else l

/-- Piecewise behaviour of Rust `str::lines` on the segments produced by
splitting at every `\n`: every segment except the last was
newline-terminated (so loses a trailing `\r`), and a final empty segment
(trailing newline, or empty input) yields no line. -/
def rustLinesAux : List (List Char) → List (List Char)
  | [] => []
  | [last] => if last = [] then [] else [last]
  | seg :: rest => stripCR seg :: rustLinesAux rest

/-- Model of Rust `str::lines`. -/
def rustLines (s : String) : List String :=
  (rustLinesAux (splitOnChar '\n' s.data)).map String.mk

/-- Character-list version of Rust `str::starts_with` with a string pattern. -/
def isPrefB : List Char → List Char → Bool
  | [], _ => true
  | _ :: _, [] => false
  | a :: ps, b :: ls => if a = b then isPrefB ps ls else false

/-- Model of Rust `str::starts_with` with a string pattern. -/
def startsWithL (s pat : String) : Bool :=
  isPrefB pat.data s.data

/-- Does `pat` occur as a contiguous sublist of the second argument? -/
def hasSubList (pat : List Char) : List Char → Bool
  | [] => isPrefB pat []
  | c :: ls => isPrefB pat (c :: ls) || hasSubList pat ls

/-- Model of Rust `str::contains` with a string pattern. -/
def containsSub (s pat : String) : Bool :=
  hasSubList pat.data s.data

/-- Model of Rust `str::find(':')` combined with slicing: returns the part
before and the part after the first colon, or `none` when there is no
colon. -/
def splitAtColon : List Char → Option (List Char × List Char)
  | [] => none
  | c :: cs =>
    if c = ':' then some ([], cs)
    else
      match splitAtColon cs with
      | none => none
      | some (pre, post) => some (c :: pre, post)

/-! ### Rust `std::path` on Unix: components and prefix stripping -/

/-- A parsed path component, as in Rust `std::path::Component` on Unix. -/
inductive Comp
  | rootDir
  | curDir
  | parentDir
  | normal (xs : List Char)
deriving DecidableEq

/-- Non-empty raw items of a path: split on the separator and drop empty
pieces (this collapses repeated separators and ignores edge separators). -/
def itemsOf (s : List Char) : List (List Char) :=
  (splitOnChar '/' s).filter (fun l => !decide (l = []))

/-- Named components of a path: the non-empty items with every `.` item
dropped, `..` parsed as the parent-directory component and anything else
as a normal component. -/
def namedOf (s : List Char) : List Comp :=
  ((itemsOf s).filter (fun l => !decide (l = ['.']))).map
    (fun l => if l = ['.', '.'] then Comp.parentDir else Comp.normal l)

/-- Model of Rust `Path::components` on Unix: a root component when the
path begins with the separator, a current-directory component only when a
relative path literally begins with `.`, then the named components. -/
def parseComps (s : List Char) : List Comp :=
  let hasRoot := decide (s.head? = some '/')
  let incCur := !hasRoot && decide ((itemsOf s).head? = some ['.'])
  (if hasRoot then [Comp.rootDir] else []) ++
    ((if incCur then [Comp.curDir] else []) ++ namedOf s)

/-- Component-wise prefix removal, as in Rust `Path::strip_prefix`:
succeeds exactly when the first list is a prefix of the second, returning
the remaining components. -/
def stripPrefComps : List Comp → List Comp → Option (List Comp)
  | [], cs => some cs
  | _ :: _, [] => none
  | b :: bs, c :: cs => if b = c then stripPrefComps bs cs else none

/-- The text of one component (the root component is handled separately
when joining). -/
def compStr : Comp → List Char
  | Comp.rootDir => ['/']
  | Comp.curDir => ['.']
  | Comp.parentDir => ['.', '.']
  | Comp.normal xs => xs

/-- Join non-root components with the separator. -/
def joinNamed : List Comp → List Char
  | [] => []
  | [c] => compStr c
  | c :: c2 :: cs => compStr c ++ '/' :: joinNamed (c2 :: cs)

/-- Rebuild a path string from components, as collecting Rust components
into a `PathBuf` does. -/
def joinComps : List Comp → List Char
  | Comp.rootDir :: cs => '/' :: joinNamed cs
  | cs => joinNamed cs

/-- Model of Rust `Path::is_relative` on Unix: the path does not start
with the separator. -/
def isRelativeL (l : List Char) : Bool :=
  !decide (l.head? = some '/')

/-! ### Data model of `executor.rs` types used by the adapter -/

/-- The closed variant set of tool actions (`ActionType`). -/
inductive ActionType
  | FileRead (path : String)
  | FileWrite (path : String)
  | CommandRun (command : String)
  | Search (query : String)
  | TaskCreate (description : String)
  | WebFetch (url : String)
  | Other (description : String)
deriving DecidableEq

/-- The closed set of entry kinds (`NormalizedEntryType`). -/
inductive NormalizedEntryType
  | SystemMessage
  | UserMessage
  | AssistantMessage
  | ToolUse (tool_name : String) (action_type : ActionType)
deriving DecidableEq

/-- One classified line (`NormalizedEntry`). -/
structure NormalizedEntry where
  timestamp : Option String
  entry_type : NormalizedEntryType
  content : String
  metadata : Option String
deriving DecidableEq

/-- The result of processing one log blob (`NormalizedConversation`). -/
structure NormalizedConversation where
  entries : List NormalizedEntry
  session_id : Option String
  executor_type : String
  prompt : Option String
  summary : Option String
deriving DecidableEq

/-! ### The `AaaExecutor` -/

/-- The executor configuration (`AaaExecutor` struct). -/
structure AaaExecutor where
  executor_type : String
  command : String
deriving DecidableEq

/-- Model of `AaaExecutor::new`. -/
def AaaExecutor.new : AaaExecutor :=
  { executor_type := "AAA", command := "aaa" }

/-- Model of `AaaExecutor::make_path_relative`: return a relative path unchanged;
otherwise strip the worktree prefix component-wise when possible, and
return the original path when stripping fails. -/
def AaaExecutor.make_path_relative (self : AaaExecutor)
    (path worktree_path : String) : String :=
  if isRelativeL path.data then path
  else
    match stripPrefComps (parseComps worktree_path.data) (parseComps path.data) with
    | some rem => String.mk (joinComps rem)
    | none => path

/-- Model of `AaaExecutor::is_tool_usage`: the six fixed marker substrings. -/
def AaaExecutor.is_tool_usage (self : AaaExecutor) (line : String) : Bool :=
  containsSub line "Reading file:" ||
  containsSub line "Writing file:" ||
  containsSub line "Running command:" ||
  containsSub line "Searching for:" ||
  containsSub line "Creating task:" ||
  containsSub line "Fetching URL:"

/-- Model of `AaaExecutor::extract_path_from_line`: text after the first colon,
trimmed and relativized; the line itself when there is no colon. -/
def AaaExecutor.extract_path_from_line (self : AaaExecutor)
    (line worktree_path : String) : String :=
  match splitAtColon line.data with
  | some (_, post) => self.make_path_relative (String.mk (rustTrimL post)) worktree_path
  | none => line

/-- Model of `AaaExecutor::extract_command_from_line`: text after the first colon,
trimmed; the line itself when there is no colon. -/
def AaaExecutor.extract_command_from_line (self : AaaExecutor) (line : String) : String :=
  match splitAtColon line.data with
  | some (_, post) => String.mk (rustTrimL post)
  | none => line

/-- Model of `AaaExecutor::extract_query_from_line`. -/
def AaaExecutor.extract_query_from_line (self : AaaExecutor) (line : String) : String :=
  match splitAtColon line.data with
  | some (_, post) => String.mk (rustTrimL post)
  | none => line

/-- Model of `AaaExecutor::extract_description_from_line`. -/
def AaaExecutor.extract_description_from_line (self : AaaExecutor) (line : String) : String :=
  match splitAtColon line.data with
  | some (_, post) => String.mk (rustTrimL post)
  | none => line

/-- Model of `AaaExecutor::extract_url_from_line`. -/
def AaaExecutor.extract_url_from_line (self : AaaExecutor) (line : String) : String :=
  match splitAtColon line.data with
  | some (_, post) => String.mk (rustTrimL post)
  | none => line

/-- Model of `AaaExecutor::extract_tool_info`: dispatch on the six marker
substrings in the fixed order, with a fallback `unknown`/`Other` pair. -/
def AaaExecutor.extract_tool_info (self : AaaExecutor)
    (line worktree_path : String) : String × ActionType :=
  if containsSub line "Reading file:" then
    ("file_read", ActionType.FileRead (self.extract_path_from_line line worktree_path))
  else if containsSub line "Writing file:" then
    ("file_write", ActionType.FileWrite (self.extract_path_from_line line worktree_path))
  else if containsSub line "Running command:" then
    ("command_run", ActionType.CommandRun (self.extract_command_from_line line))
  else if containsSub line "Searching for:" then
    ("search", ActionType.Search (self.extract_query_from_line line))
  else if containsSub line "Creating task:" then
    ("task_create", ActionType.TaskCreate (self.extract_description_from_line line))
  else if containsSub line "Fetching URL:" then
    ("web_fetch", ActionType.WebFetch (self.extract_url_from_line line))
  else
    ("unknown", ActionType.Other line)

/-- Per-line classification from `AaaExecutor::normalize_logs` (the
`entry_type` computation, first match wins). -/
def classify_line (self : AaaExecutor) (trimmed worktree_path : String) :
    NormalizedEntryType :=
  if startsWithL trimmed "Error:" || startsWithL trimmed "❌" then
    NormalizedEntryType.SystemMessage
  else if startsWithL trimmed "✅" || startsWithL trimmed "🚀" || startsWithL trimmed "📦" then
    NormalizedEntryType.SystemMessage
  else if startsWithL trimmed "User input:" || startsWithL trimmed "Enter your message:" then
    NormalizedEntryType.UserMessage
  else if self.is_tool_usage trimmed then
    match self.extract_tool_info trimmed worktree_path with
    | (tool_name, action_type) => NormalizedEntryType.ToolUse tool_name action_type
  else
    NormalizedEntryType.AssistantMessage

/-- The loop of `AaaExecutor::normalize_logs`: trim each line, skip
blanks, classify, and append an entry with no timestamp and no metadata. -/
def AaaExecutor.normalized_entries (self : AaaExecutor)
    (logs worktree_path : String) : List NormalizedEntry :=
  (rustLines logs).foldl
    (fun acc line =>
      let trimmed := rustTrim line
      if trimmed = "" then acc
      else acc ++ [{ timestamp := none,
                     entry_type := classify_line self trimmed worktree_path,
                     content := trimmed,
                     metadata := none }])
    []

/-- Model of `AaaExecutor::normalize_logs`: always `Ok`, with no session id, no
prompt and no summary. -/
def AaaExecutor.normalize_logs (self : AaaExecutor)
    (logs worktree_path : String) : Except String NormalizedConversation :=
  Except.ok
    { entries := self.normalized_entries logs worktree_path,
      session_id := none,
      executor_type := self.executor_type,
      prompt := none,
      summary := none }

/-! ### Structure of the normalization loop -/

/-- The trimmed non-blank lines of a blob, in input order. -/
def nonBlankLines (logs : String) : List String :=
  ((rustLines logs).map rustTrim).filter (fun s => !decide (s = ""))

/-- The push-into-a-vector loop of `normalize_logs` is an append-only
fold, so it equals a `filterMap` over the lines. -/
theorem foldl_entries (self : AaaExecutor) (wt : String) (ls : List String)
    (acc : List NormalizedEntry) :
    ls.foldl
      (fun acc line =>
        let trimmed := rustTrim line
        if trimmed = "" then acc
        else acc ++ [{ timestamp := none,
                       entry_type := classify_line self trimmed wt,
                       content := trimmed,
                       metadata := none }])
      acc
    = acc ++ ls.filterMap
        (fun line =>
          let trimmed := rustTrim line
          if trimmed = "" then none
          else some { timestamp := none,
                      entry_type := classify_line self trimmed wt,
                      content := trimmed,
                      metadata := none }) := by
  induction ls generalizing acc with
  | nil => simp
  | cons l ls ih =>
    simp only [List.foldl_cons, List.filterMap_cons]
    by_cases h : rustTrim l = ""
    · simp [h, ih]
    · simp [h, ih]

/-- Rewriting of `normalized_entries` as a `filterMap`. -/
theorem normalized_entries_eq (self : AaaExecutor) (logs wt : String) :
    self.normalized_entries logs wt
    = (rustLines logs).filterMap
        (fun line =>
          let trimmed := rustTrim line
          if trimmed = "" then none
          else some { timestamp := none,
                      entry_type := classify_line self trimmed wt,
                      content := trimmed,
                      metadata := none }) := by
  unfold AaaExecutor.normalized_entries
  rw [foldl_entries]
  simp

/-- The contents of the produced entries are exactly the trimmed
non-blank lines, in order. -/
theorem entries_map_content (self : AaaExecutor) (logs wt : String) :
    (self.normalized_entries logs wt).map NormalizedEntry.content = nonBlankLines logs := by
  rw [normalized_entries_eq]
  unfold nonBlankLines
  induction rustLines logs with
  | nil => rfl
  | cons l ls ih =>
    by_cases h : rustTrim l = ""
    · simp [h, ih]
    · simp [h, ih]

/-- Every produced entry has an absent timestamp. -/
theorem entries_map_timestamp (self : AaaExecutor) (logs wt : String) :
    (self.normalized_entries logs wt).map NormalizedEntry.timestamp
    = List.replicate (self.normalized_entries logs wt).length none := by
  rw [normalized_entries_eq]
  induction rustLines logs with
  | nil => rfl
  | cons l ls ih =>
    by_cases h : rustTrim l = ""
    · simp [h, ih]
    · simp [h, ih, List.replicate_succ]

/-- C1: for every input blob and worktree root, `normalize_logs` succeeds
with one entry per trimmed non-blank line, in input order, whose `content`
is the trimmed line verbatim and whose `timestamp` is absent. -/
theorem claim_c1 (self : AaaExecutor) (logs worktree_path : String) :
    self.normalize_logs logs worktree_path = Except.ok
      { entries := self.normalized_entries logs worktree_path,
        session_id := none,
        executor_type := self.executor_type,
        prompt := none,
        summary := none } ∧
    (self.normalized_entries logs worktree_path).map NormalizedEntry.content
      = nonBlankLines logs ∧
    (self.normalized_entries logs worktree_path).length = (nonBlankLines logs).length ∧
    (self.normalized_entries logs worktree_path).map NormalizedEntry.timestamp
      = List.replicate (self.normalized_entries logs worktree_path).length none := by
  refine ⟨rfl, entries_map_content self logs worktree_path, ?_,
    entries_map_timestamp self logs worktree_path⟩
  rw [← entries_map_content self logs worktree_path, List.length_map]

/-- C3: `normalize_logs` is total: every input yields `Ok`, and the empty
blob yields a record with no entries and no session id. -/
theorem claim_c3 (self : AaaExecutor) (logs worktree_path : String) :
    (∃ conv, self.normalize_logs logs worktree_path = Except.ok conv) ∧
    self.normalize_logs "" worktree_path = Except.ok
      { entries := [],
        session_id := none,
        executor_type := self.executor_type,
        prompt := none,
        summary := none } := by
  constructor
  · exact ⟨_, rfl⟩
  · have h : rustLines "" = [] := rfl
    simp [AaaExecutor.normalize_logs, AaaExecutor.normalized_entries, h]

/-! ### Line classification -/

/-- C2: classification is total over the four entry kinds and
first-match-wins over the ordered rule list; in particular an error
prefix beats a tool-usage marker. -/
theorem claim_c2 (self : AaaExecutor) (s worktree_path : String) :
    (classify_line self s worktree_path = NormalizedEntryType.SystemMessage ∨
     classify_line self s worktree_path = NormalizedEntryType.UserMessage ∨
     classify_line self s worktree_path = NormalizedEntryType.AssistantMessage ∨
     ∃ tn a, classify_line self s worktree_path = NormalizedEntryType.ToolUse tn a) ∧
    ((startsWithL s "Error:" || startsWithL s "❌") = true →
      classify_line self s worktree_path = NormalizedEntryType.SystemMessage) ∧
    ((startsWithL s "Error:" || startsWithL s "❌") = false →
     (startsWithL s "✅" || startsWithL s "🚀" || startsWithL s "📦") = true →
      classify_line self s worktree_path = NormalizedEntryType.SystemMessage) ∧
    ((startsWithL s "Error:" || startsWithL s "❌") = false →
     (startsWithL s "✅" || startsWithL s "🚀" || startsWithL s "📦") = false →
     (startsWithL s "User input:" || startsWithL s "Enter your message:") = true →
      classify_line self s worktree_path = NormalizedEntryType.UserMessage) ∧
    ((startsWithL s "Error:" || startsWithL s "❌") = false →
     (startsWithL s "✅" || startsWithL s "🚀" || startsWithL s "📦") = false →
     (startsWithL s "User input:" || startsWithL s "Enter your message:") = false →
     self.is_tool_usage s = true →
      classify_line self s worktree_path =
        NormalizedEntryType.ToolUse (self.extract_tool_info s worktree_path).1
          (self.extract_tool_info s worktree_path).2) ∧
    ((startsWithL s "Error:" || startsWithL s "❌") = false →
     (startsWithL s "✅" || startsWithL s "🚀" || startsWithL s "📦") = false →
     (startsWithL s "User input:" || startsWithL s "Enter your message:") = false →
     self.is_tool_usage s = false →
      classify_line self s worktree_path = NormalizedEntryType.AssistantMessage) ∧
    ((startsWithL s "Error:" || startsWithL s "❌") = true →
     self.is_tool_usage s = true →
      classify_line self s worktree_path = NormalizedEntryType.SystemMessage) := by
  refine ⟨?_, ?_, ?_, ?_, ?_, ?_, ?_⟩
  · cases hcl : classify_line self s worktree_path with
    | SystemMessage => exact Or.inl rfl
    | UserMessage => exact Or.inr (Or.inl rfl)
    | AssistantMessage => exact Or.inr (Or.inr (Or.inl rfl))
    | ToolUse tn a => exact Or.inr (Or.inr (Or.inr ⟨tn, a, rfl⟩))
  · intro h1; simp [classify_line, h1]
  · intro h1 h2; simp [classify_line, h1, h2]
  · intro h1 h2 h3; simp [classify_line, h1, h2, h3]
  · intro h1 h2 h3 h4; simp [classify_line, h1, h2, h3, h4]
  · intro h1 h2 h3 h4; simp [classify_line, h1, h2, h3, h4]
  · intro h1 h4; simp [classify_line, h1]

/-- Witness for C2 at a line that carries both the failure glyph and a
tool-usage marker. -/
theorem claim_c2_witness :
    classify_line AaaExecutor.new "❌ Running command: ls" "/w"
      = NormalizedEntryType.SystemMessage :=
  (claim_c2 AaaExecutor.new "❌ Running command: ls" "/w").2.2.2.2.2.2
    (by decide) (by decide)

/-- C8: a line satisfying the tool-usage predicate never reaches the
fallback branch of `extract_tool_info`. -/
theorem claim_c8 (self : AaaExecutor) (line worktree_path : String)
    (h : self.is_tool_usage line = true) :
    (self.extract_tool_info line worktree_path).1 ≠ "unknown" ∧
    ∀ d, (self.extract_tool_info line worktree_path).2 ≠ ActionType.Other d := by
  unfold AaaExecutor.is_tool_usage at h
  unfold AaaExecutor.extract_tool_info
  by_cases h1 : containsSub line "Reading file:" = true
  · refine ⟨?_, ?_⟩ <;> simp [h1]
  · rw [Bool.not_eq_true] at h1
    by_cases h2 : containsSub line "Writing file:" = true
    · refine ⟨?_, ?_⟩ <;> simp [h1, h2]
    · rw [Bool.not_eq_true] at h2
      by_cases h3 : containsSub line "Running command:" = true
      · refine ⟨?_, ?_⟩ <;> simp [h1, h2, h3]
      · rw [Bool.not_eq_true] at h3
        by_cases h4 : containsSub line "Searching for:" = true
        · refine ⟨?_, ?_⟩ <;> simp [h1, h2, h3, h4]
        · rw [Bool.not_eq_true] at h4
          by_cases h5 : containsSub line "Creating task:" = true
          · refine ⟨?_, ?_⟩ <;> simp [h1, h2, h3, h4, h5]
          · rw [Bool.not_eq_true] at h5
            by_cases h6 : containsSub line "Fetching URL:" = true
            · refine ⟨?_, ?_⟩ <;> simp [h1, h2, h3, h4, h5, h6]
            · rw [Bool.not_eq_true] at h6
              rw [h1, h2, h3, h4, h5, h6] at h
              simp at h

/-- Witness for C8 at a command-running line. -/
theorem claim_c8_witness :
    (AaaExecutor.new.extract_tool_info "Running command: ls" "/w").1 ≠ "unknown" :=
  (claim_c8 AaaExecutor.new "Running command: ls" "/w" (by decide)).1

/-! ### Field extraction after the first colon -/

/-- Splitting at the first colon of `pre ++ ':' :: post` returns `pre`
and `post` when `pre` is colon-free. -/
theorem splitAtColon_append (pre post : List Char) (h : ':' ∉ pre) :
    splitAtColon (pre ++ ':' :: post) = some (pre, post) := by
  induction pre with
  | nil => simp [splitAtColon]
  | cons c cs ih =>
    have hc : ¬ c = ':' := fun e => h (by simp [e])
    have hmem : ':' ∉ cs := fun m => h (List.mem_cons_of_mem _ m)
    simp [splitAtColon, hc, ih hmem]

/-- Splitting at the first colon fails on a colon-free list. -/
theorem splitAtColon_none (l : List Char) (h : ':' ∉ l) :
    splitAtColon l = none := by
  induction l with
  | nil => rfl
  | cons c cs ih =>
    have hc : ¬ c = ':' := fun e => h (by simp [e])
    have hmem : ':' ∉ cs := fun m => h (List.mem_cons_of_mem _ m)
    simp [splitAtColon, hc, ih hmem]

/-- Counterexample to C4 as stated: on a colon-free line that carries
surrounding whitespace, extraction returns the line unchanged, not the
trimmed line; and for paths the extracted substring is additionally
relativized, so it is not the trimmed substring after the colon. -/
theorem claim_c4_counterexample :
    ¬ (AaaExecutor.new.extract_command_from_line "  npm install  "
        = rustTrim "  npm install  ") ∧
    ¬ (AaaExecutor.new.extract_path_from_line "Reading file: /tmp/wt/a.txt" "/tmp/wt"
        = rustTrim " /tmp/wt/a.txt") := by decide

/-- C4 (amended): with a colon present, extraction returns the text after
the first colon, trimmed (and, for paths, additionally relativized against
the worktree root); with no colon present, extraction returns the whole
line unchanged, without trimming. -/
theorem claim_c4 (self : AaaExecutor) (pre post : List Char)
    (line worktree_path : String) :
    (':' ∉ pre →
       self.extract_command_from_line (String.mk (pre ++ ':' :: post))
         = rustTrim (String.mk post) ∧
       self.extract_query_from_line (String.mk (pre ++ ':' :: post))
         = rustTrim (String.mk post) ∧
       self.extract_description_from_line (String.mk (pre ++ ':' :: post))
         = rustTrim (String.mk post) ∧
       self.extract_url_from_line (String.mk (pre ++ ':' :: post))
         = rustTrim (String.mk post) ∧
       self.extract_path_from_line (String.mk (pre ++ ':' :: post)) worktree_path
         = self.make_path_relative (rustTrim (String.mk post)) worktree_path) ∧
    (':' ∉ line.data →
       self.extract_command_from_line line = line ∧
       self.extract_query_from_line line = line ∧
       self.extract_description_from_line line = line ∧
       self.extract_url_from_line line = line ∧
       self.extract_path_from_line line worktree_path = line) := by
  constructor
  · intro h
    have hs : splitAtColon (String.mk (pre ++ ':' :: post)).data = some (pre, post) :=
      splitAtColon_append pre post h
    refine ⟨?_, ?_, ?_, ?_, ?_⟩ <;>
      simp [AaaExecutor.extract_command_from_line, AaaExecutor.extract_query_from_line,
        AaaExecutor.extract_description_from_line, AaaExecutor.extract_url_from_line,
        AaaExecutor.extract_path_from_line, hs, rustTrim]
  · intro h
    have hs : splitAtColon line.data = none := splitAtColon_none line.data h
    refine ⟨?_, ?_, ?_, ?_, ?_⟩ <;>
      simp [AaaExecutor.extract_command_from_line, AaaExecutor.extract_query_from_line,
        AaaExecutor.extract_description_from_line, AaaExecutor.extract_url_from_line,
        AaaExecutor.extract_path_from_line, hs]

/-- Witness for C4 (amended) at a concrete line with and without a colon. -/
theorem claim_c4_witness :
    AaaExecutor.new.extract_command_from_line "Running command: ls " = "ls" ∧
    AaaExecutor.new.extract_command_from_line "npm install" = "npm install" := by
  constructor
  · have h := ((claim_c4 AaaExecutor.new ("Running command".data) (" ls ".data)
      "x" "/w").1 (by decide)).1
    have e1 : String.mk ("Running command".data ++ ':' :: " ls ".data)
        = "Running command: ls " := by decide
    have e2 : rustTrim (String.mk " ls ".data) = "ls" := by decide
    rw [e1, e2] at h
    exact h
  · exact ((claim_c4 AaaExecutor.new [] [] "npm install" "/w").2 (by decide)).1

/-- C7: the tool-use dispatch scenarios fixed by the marker table. -/
theorem claim_c7 :
    AaaExecutor.new.extract_tool_info "Reading file: src/main.x" "/tmp/wt"
      = ("file_read", ActionType.FileRead "src/main.x") ∧
    AaaExecutor.new.extract_tool_info "Reading file: /tmp/wt/src/main.x" "/tmp/wt"
      = ("file_read", ActionType.FileRead "src/main.x") ∧
    AaaExecutor.new.extract_tool_info "Running command: npm install" "/tmp/wt"
      = ("command_run", ActionType.CommandRun "npm install") ∧
    classify_line AaaExecutor.new "Reading file: src/main.x" "/tmp/wt"
      = NormalizedEntryType.ToolUse "file_read" (ActionType.FileRead "src/main.x") := by
  decide

/-- C10: payload extraction searches for the colon from the start of the
whole line, so a colon before the marker wins and the payload keeps the
marker text. -/
theorem claim_c10 (self : AaaExecutor) (pre post : List Char) (worktree_path : String) :
    self.extract_tool_info "Note: Running command: ls" worktree_path
      = ("command_run", ActionType.CommandRun "Running command: ls") ∧
    (':' ∉ pre →
      self.extract_command_from_line (String.mk (pre ++ ':' :: post))
        = rustTrim (String.mk post)) := by
  constructor
  · have hA : containsSub "Note: Running command: ls" "Reading file:" = false := by decide
    have hB : containsSub "Note: Running command: ls" "Writing file:" = false := by decide
    have hC : containsSub "Note: Running command: ls" "Running command:" = true := by decide
    have hcmd : self.extract_command_from_line "Note: Running command: ls"
        = "Running command: ls" := by
      have hs : splitAtColon ("Note: Running command: ls").data
          = some ("Note".data, " Running command: ls".data) := by decide
      simp [AaaExecutor.extract_command_from_line, hs]
      decide
    simp [AaaExecutor.extract_tool_info, hA, hB, hC, hcmd]
  · intro h
    have hs : splitAtColon (String.mk (pre ++ ':' :: post)).data = some (pre, post) :=
      splitAtColon_append pre post h
    simp [AaaExecutor.extract_command_from_line, hs, rustTrim]

/-- Witness for C10 at the concrete early-colon line. -/
theorem claim_c10_witness :
    AaaExecutor.new.extract_command_from_line "Note: Running command: ls"
      = "Running command: ls" := by
  have h := (claim_c10 AaaExecutor.new ("Note".data)
    (" Running command: ls".data) "/w").2 (by decide)
  have e1 : String.mk ("Note".data ++ ':' :: " Running command: ls".data)
      = "Note: Running command: ls" := by decide
  have e2 : rustTrim (String.mk " Running command: ls".data)
      = "Running command: ls" := by decide
  rw [e1, e2] at h
  exact h

/-! ### Path splitting and joining lemmas -/

/-- Splitting never yields an empty list of pieces. -/
theorem splitOnChar_ne_nil (sep : Char) (l : List Char) :
    splitOnChar sep l ≠ [] := by
  cases l with
  | nil => simp [splitOnChar]
  | cons c cs =>
    by_cases h : c = sep
    · simp [splitOnChar, h]
    · simp only [splitOnChar, if_neg h]
      cases hs : splitOnChar sep cs <;> simp

/-- Splitting at a separator distributes over an append through an
explicit separator. -/
theorem splitOnChar_append (sep : Char) (xs ys : List Char) :
    splitOnChar sep (xs ++ sep :: ys) = splitOnChar sep xs ++ splitOnChar sep ys := by
  induction xs with
  | nil => simp [splitOnChar]
  | cons c cs ih =>
    by_cases h : c = sep
    · simp [splitOnChar, h, ih]
    · obtain ⟨l, ls, hls⟩ : ∃ l ls, splitOnChar sep cs = l :: ls := by
        cases hs : splitOnChar sep cs with
        | nil => exact absurd hs (splitOnChar_ne_nil sep cs)
        | cons l ls => exact ⟨l, ls, rfl⟩
      simp [splitOnChar, h, ih, hls]

/-- No piece produced by splitting contains the separator. -/
theorem splitOnChar_no_sep (sep : Char) (l : List Char) :
    ∀ x ∈ splitOnChar sep l, sep ∉ x := by
  induction l with
  | nil =>
    intro x hx
    simp [splitOnChar] at hx
    simp [hx]
  | cons c cs ih =>
    intro x hx
    by_cases h : c = sep
    · simp only [splitOnChar, if_pos h, List.mem_cons] at hx
      rcases hx with hx | hx
      · simp [hx]
      · exact ih x hx
    · simp only [splitOnChar, if_neg h] at hx
      obtain ⟨l1, ls1, hls⟩ : ∃ l1 ls1, splitOnChar sep cs = l1 :: ls1 := by
        cases hs : splitOnChar sep cs with
        | nil => exact absurd hs (splitOnChar_ne_nil sep cs)
        | cons l1 ls1 => exact ⟨l1, ls1, rfl⟩
      rw [hls] at hx
      rcases List.mem_cons.mp hx with hx | hx
      · subst hx
        intro hmem
        rcases List.mem_cons.mp hmem with he | he
        · exact h he.symm
        · exact ih l1 (hls ▸ List.mem_cons_self l1 ls1) he
      · exact ih x (hls ▸ List.mem_cons_of_mem l1 hx)

/-- Splitting a list free of the separator yields just that list. -/
theorem splitOnChar_no_sep_eq (sep : Char) (l : List Char) (h : sep ∉ l) :
    splitOnChar sep l = [l] := by
  induction l with
  | nil => rfl
  | cons c cs ih =>
    have hc : ¬ c = sep := fun e => h (by simp [e])
    have hmem : sep ∉ cs := fun m => h (List.mem_cons_of_mem _ m)
    simp [splitOnChar, hc, ih hmem]

/-- Prepending a character to the first normal component prepends it to
the joined path. -/
theorem joinNamed_normal_cons (c : Char) (l : List Char) (ms : List Comp) :
    joinNamed (Comp.normal (c :: l) :: ms) = c :: joinNamed (Comp.normal l :: ms) := by
  cases ms <;> simp [joinNamed, compStr]

/-- Joining the pieces of a split with the separator restores the
original list. -/
theorem joinNamed_map_normal_split (l : List Char) :
    joinNamed ((splitOnChar '/' l).map Comp.normal) = l := by
  induction l with
  | nil => rfl
  | cons c cs ih =>
    obtain ⟨m, ms, hm⟩ : ∃ m ms, splitOnChar '/' cs = m :: ms := by
      cases hs : splitOnChar '/' cs with
      | nil => exact absurd hs (splitOnChar_ne_nil _ _)
      | cons m ms => exact ⟨m, ms, rfl⟩
    by_cases h : c = '/'
    · subst h
      have hsp : splitOnChar '/' ('/' :: cs) = [] :: splitOnChar '/' cs := by
        simp [splitOnChar]
      rw [hsp, hm, List.map_cons, List.map_cons]
      rw [hm, List.map_cons] at ih
      simp only [joinNamed, compStr, List.nil_append]
      rw [ih]
    · simp only [splitOnChar, if_neg h, hm, List.map_cons]
      rw [hm] at ih
      simp only [List.map_cons] at ih
      rw [joinNamed_normal_cons, ih]

/-- Component prefix stripping succeeds exactly on list prefixes. -/
theorem stripPrefComps_eq_some_iff (a : List Comp) :
    ∀ (b c : List Comp), stripPrefComps a b = some c ↔ b = a ++ c := by
  induction a with
  | nil =>
    intro b c
    simp [stripPrefComps]
  | cons x xs ih =>
    intro b c
    cases b with
    | nil => simp [stripPrefComps]
    | cons y ys =>
      by_cases h : x = y
      · subst h
        simp [stripPrefComps, ih ys c]
      · constructor
        · intro hc
          simp [stripPrefComps, h] at hc
        · intro hc
          rw [List.cons_append] at hc
          injection hc with h1 h2
          exact absurd h1.symm h

/-! ### Component parsing lemmas -/

/-- Items distribute over an append through an explicit separator. -/
theorem itemsOf_append (r rest : List Char) :
    itemsOf (r ++ '/' :: rest) = itemsOf r ++ itemsOf rest := by
  unfold itemsOf
  rw [splitOnChar_append, List.filter_append]

/-- Named components distribute over an append through an explicit
separator. -/
theorem namedOf_append (r rest : List Char) :
    namedOf (r ++ '/' :: rest) = namedOf r ++ namedOf rest := by
  unfold namedOf
  rw [itemsOf_append, List.filter_append, List.map_append]

/-- A path starting with the separator parses to the root component
followed by its named components. -/
theorem parseComps_rooted (l : List Char) (h : l.head? = some '/') :
    parseComps l = Comp.rootDir :: namedOf l := by
  unfold parseComps
  rw [h]
  simp

/-- Appending a separator and a remainder to a rooted path appends the
remainder's named components. -/
theorem parseComps_rooted_append (r rest : List Char) (hr : r.head? = some '/') :
    parseComps (r ++ '/' :: rest) = parseComps r ++ namedOf rest := by
  have hhead : (r ++ '/' :: rest).head? = some '/' := by
    cases r with
    | nil => simp at hr
    | cons a as => simpa using hr
  rw [parseComps_rooted _ hhead, parseComps_rooted _ hr, namedOf_append]
  simp

/-- A relative remainder is clean when each of its separator-delimited
pieces is non-empty and is not a current- or parent-directory marker. -/
def cleanRel (rest : List Char) : Bool :=
  (splitOnChar '/' rest).all
    (fun l => !decide (l = []) && !decide (l = ['.']) && !decide (l = ['.', '.']))

/-- On clean pieces, the filters and the marker mapping of component
parsing act as a plain map to normal components. -/
theorem clean_pieces_named (ps : List (List Char))
    (h : ∀ a ∈ ps, a ≠ [] ∧ a ≠ ['.'] ∧ a ≠ ['.', '.']) :
    ((ps.filter (fun l => !decide (l = []))).filter (fun l => !decide (l = ['.']))).map
      (fun l => if l = ['.', '.'] then Comp.parentDir else Comp.normal l)
    = ps.map Comp.normal := by
  induction ps with
  | nil => rfl
  | cons p ps ih =>
    obtain ⟨h1, h2, h3⟩ := h p (List.mem_cons_self p ps)
    have ht : ∀ a ∈ ps, a ≠ [] ∧ a ≠ ['.'] ∧ a ≠ ['.', '.'] :=
      fun a ha => h a (List.mem_cons_of_mem p ha)
    have e1 : List.filter (fun l => !decide (l = [])) (p :: ps)
        = p :: List.filter (fun l => !decide (l = [])) ps := by simp [h1]
    have e2 : List.filter (fun l => !decide (l = ['.']))
          (p :: List.filter (fun l => !decide (l = [])) ps)
        = p :: List.filter (fun l => !decide (l = ['.']))
            (List.filter (fun l => !decide (l = [])) ps) := by simp [h2]
    rw [e1, e2, List.map_cons, ih ht]
    simp [h3]

/-- On a clean remainder the named components are exactly the pieces, as
normal components. -/
theorem cleanRel_named (rest : List Char) (hc : cleanRel rest = true) :
    namedOf rest = (splitOnChar '/' rest).map Comp.normal := by
  have hall : ∀ a ∈ splitOnChar '/' rest, a ≠ [] ∧ a ≠ ['.'] ∧ a ≠ ['.', '.'] := by
    intro a ha
    unfold cleanRel at hc
    rw [List.all_eq_true] at hc
    have := hc a ha
    simp at this
    exact ⟨this.1.1, this.1.2, this.2⟩
  unfold namedOf itemsOf
  exact clean_pieces_named _ hall

/-- Rebuilding from a root component. -/
theorem joinComps_root (cs : List Comp) :
    joinComps (Comp.rootDir :: cs) = '/' :: joinNamed cs := rfl

/-- Rebuilding from a leading normal component. -/
theorem joinComps_normal (l : List Char) (cs : List Comp) :
    joinComps (Comp.normal l :: cs) = joinNamed (Comp.normal l :: cs) := rfl

/-- Rebuilding from a leading parent-directory component. -/
theorem joinComps_parent (cs : List Comp) :
    joinComps (Comp.parentDir :: cs) = joinNamed (Comp.parentDir :: cs) := rfl

/-- Rebuilding from a leading current-directory component. -/
theorem joinComps_cur (cs : List Comp) :
    joinComps (Comp.curDir :: cs) = joinNamed (Comp.curDir :: cs) := rfl

/-! ### Behaviour of `make_path_relative` -/

/-- A relative path is returned unchanged. -/
theorem mpr_relative (self : AaaExecutor) (p r : String)
    (h : isRelativeL p.data = true) :
    self.make_path_relative p r = p := by
  unfold AaaExecutor.make_path_relative
  simp [h]

/-- An absolute path whose components do not extend the root's components
is returned unchanged. -/
theorem mpr_not_pref (self : AaaExecutor) (p r : String)
    (h1 : isRelativeL p.data = false)
    (h2 : ∀ c, parseComps p.data ≠ parseComps r.data ++ c) :
    self.make_path_relative p r = p := by
  unfold AaaExecutor.make_path_relative
  have hs : stripPrefComps (parseComps r.data) (parseComps p.data) = none := by
    cases hs : stripPrefComps (parseComps r.data) (parseComps p.data) with
    | none => rfl
    | some c => exact absurd ((stripPrefComps_eq_some_iff _ _ _).mp hs) (h2 c)
  simp [h1, hs]

/-- Stripping a rooted worktree prefix from a cleanly decomposed absolute
path yields exactly the remainder. -/
theorem mpr_clean_decomp (self : AaaExecutor) (r : String) (rest : List Char)
    (hr : r.data.head? = some '/') (hc : cleanRel rest = true) :
    self.make_path_relative (String.mk (r.data ++ '/' :: rest)) r = String.mk rest := by
  have habs : isRelativeL (String.mk (r.data ++ '/' :: rest)).data = false := by
    show isRelativeL (r.data ++ '/' :: rest) = false
    unfold isRelativeL
    cases hd : r.data with
    | nil => rw [hd] at hr; simp at hr
    | cons a as =>
      rw [hd] at hr
      simp at hr
      simp [hr]
  have hparse : parseComps (String.mk (r.data ++ '/' :: rest)).data
      = parseComps r.data ++ (splitOnChar '/' rest).map Comp.normal := by
    show parseComps (r.data ++ '/' :: rest) = _
    rw [parseComps_rooted_append r.data rest hr, cleanRel_named rest hc]
  have hstrip : stripPrefComps (parseComps r.data)
      (parseComps (String.mk (r.data ++ '/' :: rest)).data)
      = some ((splitOnChar '/' rest).map Comp.normal) :=
    (stripPrefComps_eq_some_iff _ _ _).mpr hparse
  unfold AaaExecutor.make_path_relative
  simp only [habs, hstrip, Bool.false_eq_true, if_false]
  obtain ⟨m, ms, hm⟩ : ∃ m ms, splitOnChar '/' rest = m :: ms := by
    cases hs : splitOnChar '/' rest with
    | nil => exact absurd hs (splitOnChar_ne_nil _ _)
    | cons m ms => exact ⟨m, ms, rfl⟩
  rw [hm, List.map_cons, joinComps_normal, ← List.map_cons, ← hm,
    joinNamed_map_normal_split]

/-! ### Canonical component lists and idempotence -/

/-- A component name is good when it is non-empty, is not a directory
marker, and contains no separator. -/
def goodName (l : List Char) : Bool :=
  !decide (l = []) && !decide (l = ['.']) && !decide (l = ['.', '.']) && !decide ('/' ∈ l)

/-- Components that may appear after the head of a parsed path: the
parent directory, or a normal component with a good name. -/
def namedComp : Comp → Bool
  | Comp.parentDir => true
  | Comp.normal l => goodName l
  | _ => false

/-- A path that is not relative starts with the separator. -/
theorem isRelativeL_false_head (l : List Char) (h : isRelativeL l = false) :
    l.head? = some '/' := by
  unfold isRelativeL at h
  simpa using h

/-- Every named component produced by parsing is well-formed. -/
theorem namedOf_all_named (s : List Char) : (namedOf s).all namedComp = true := by
  rw [List.all_eq_true]
  intro c hcmem
  unfold namedOf at hcmem
  obtain ⟨x, hx, hxc⟩ := List.mem_map.mp hcmem
  obtain ⟨hxitems, hxdot⟩ := List.mem_filter.mp hx
  obtain ⟨hxsplit, hxemp⟩ := List.mem_filter.mp hxitems
  have hslash : '/' ∉ x := splitOnChar_no_sep '/' s x hxsplit
  rw [← hxc]
  by_cases hdd : x = ['.', '.']
  · simp [hdd, namedComp]
  · have hemp : ¬ x = [] := by simpa using hxemp
    have hdot : ¬ x = ['.'] := by simpa using hxdot
    simp [namedComp, goodName, hemp, hdot, hdd, hslash]

/-- The name of a well-formed component is non-empty and separator-free. -/
theorem namedComp_compStr (c : Comp) (hc : namedComp c = true) :
    compStr c ≠ [] ∧ '/' ∉ compStr c := by
  cases c with
  | rootDir => simp [namedComp] at hc
  | curDir => simp [namedComp] at hc
  | parentDir => exact ⟨by simp [compStr], by simp [compStr]⟩
  | normal l =>
    simp [namedComp, goodName] at hc
    exact ⟨by simpa [compStr] using hc.1.1.1, by simpa [compStr] using hc.2⟩

/-- Splitting a join of well-formed components recovers their names. -/
theorem split_join_named : ∀ (cs : List Comp), cs.all namedComp = true → cs ≠ [] →
    splitOnChar '/' (joinNamed cs) = cs.map compStr := by
  intro cs
  induction cs with
  | nil => intro h hne; exact absurd rfl hne
  | cons c cs' ih =>
    intro h hne
    rw [List.all_cons, Bool.and_eq_true] at h
    have hcs := namedComp_compStr c h.1
    cases cs' with
    | nil =>
      simp [joinNamed, splitOnChar_no_sep_eq '/' (compStr c) hcs.2]
    | cons c2 cs'' =>
      simp only [joinNamed]
      rw [splitOnChar_append, splitOnChar_no_sep_eq '/' (compStr c) hcs.2,
        ih h.2 (by simp)]
      simp

/-- The parse filters and marker mapping recover a list of well-formed
components from their names. -/
theorem named_roundtrip : ∀ (cs : List Comp), cs.all namedComp = true →
    (((cs.map compStr).filter (fun l => !decide (l = []))).filter
        (fun l => !decide (l = ['.']))).map
      (fun l => if l = ['.', '.'] then Comp.parentDir else Comp.normal l) = cs := by
  intro cs
  induction cs with
  | nil => intro h; rfl
  | cons c cs' ih =>
    intro h
    rw [List.all_cons, Bool.and_eq_true] at h
    obtain ⟨hc, ht⟩ := h
    have hprops : compStr c ≠ [] ∧ compStr c ≠ ['.'] ∧
        (if compStr c = ['.', '.'] then Comp.parentDir
         else Comp.normal (compStr c)) = c := by
      cases c with
      | rootDir => simp [namedComp] at hc
      | curDir => simp [namedComp] at hc
      | parentDir => exact ⟨by simp [compStr], by simp [compStr], by simp [compStr]⟩
      | normal l =>
        simp [namedComp, goodName] at hc
        refine ⟨by simpa [compStr] using hc.1.1.1, by simpa [compStr] using hc.1.1.2, ?_⟩
        simp [compStr, hc.1.2]
    obtain ⟨hp1, hp2, hp3⟩ := hprops
    have e1 : (compStr c :: cs'.map compStr).filter (fun l => !decide (l = []))
        = compStr c :: (cs'.map compStr).filter (fun l => !decide (l = [])) := by
      simp [hp1]
    have e2 : (compStr c :: (cs'.map compStr).filter (fun l => !decide (l = []))).filter
          (fun l => !decide (l = ['.']))
        = compStr c :: ((cs'.map compStr).filter (fun l => !decide (l = []))).filter
            (fun l => !decide (l = ['.'])) := by
      simp [hp2]
    rw [List.map_cons, e1, e2, List.map_cons, ih ht, hp3]

/-- Parsing a rebuilt rooted path recovers its components. -/
theorem parse_join_root (cs : List Comp) (h : cs.all namedComp = true) :
    parseComps ('/' :: joinNamed cs) = Comp.rootDir :: cs := by
  cases hcs : cs with
  | nil =>
    show parseComps ('/' :: joinNamed []) = [Comp.rootDir]
    decide
  | cons c cs' =>
    subst hcs
    rw [parseComps_rooted ('/' :: joinNamed (c :: cs')) (by simp)]
    unfold namedOf itemsOf
    have hsp : splitOnChar '/' ('/' :: joinNamed (c :: cs'))
        = [] :: splitOnChar '/' (joinNamed (c :: cs')) := by
      simp [splitOnChar]
    rw [hsp, split_join_named (c :: cs') h (by simp)]
    have e : ([] :: (c :: cs').map compStr).filter (fun l => !decide (l = []))
        = ((c :: cs').map compStr).filter (fun l => !decide (l = [])) := by
      simp
    rw [e, named_roundtrip (c :: cs') h]

/-- A join of well-formed components is a relative path. -/
theorem joinNamed_relative (cs : List Comp) (h : cs.all namedComp = true) :
    isRelativeL (joinNamed cs) = true := by
  cases cs with
  | nil => decide
  | cons c cs' =>
    rw [List.all_cons, Bool.and_eq_true] at h
    have hcs := namedComp_compStr c h.1
    obtain ⟨x, xs, hx⟩ : ∃ x xs, compStr c = x :: xs := by
      cases hcc : compStr c with
      | nil => exact absurd hcc hcs.1
      | cons x xs => exact ⟨x, xs, rfl⟩
    have hxne : ¬ x = '/' := by
      intro e
      refine hcs.2 ?_
      rw [hx, e]
      exact List.mem_cons_self '/' xs
    have hhead : (joinNamed (c :: cs')).head? = some x := by
      cases cs' with
      | nil => simp [joinNamed, hx]
      | cons c2 cs'' => simp [joinNamed, hx]
    unfold isRelativeL
    rw [hhead]
    simp [hxne]

/-- Relativization is idempotent. -/
theorem mpr_idem (self : AaaExecutor) (p r : String) :
    self.make_path_relative (self.make_path_relative p r) r
      = self.make_path_relative p r := by
  by_cases h1 : isRelativeL p.data = true
  · rw [mpr_relative self p r h1]
    exact mpr_relative self p r h1
  · have h1f : isRelativeL p.data = false := by
      cases hb : isRelativeL p.data
      · rfl
      · exact absurd hb h1
    have hhead := isRelativeL_false_head p.data h1f
    cases hs : stripPrefComps (parseComps r.data) (parseComps p.data) with
    | none =>
      have hfp : self.make_path_relative p r = p := by
        unfold AaaExecutor.make_path_relative
        simp [h1f, hs]
      rw [hfp]
      exact hfp
    | some rem =>
      have hfp : self.make_path_relative p r = String.mk (joinComps rem) := by
        unfold AaaExecutor.make_path_relative
        simp [h1f, hs]
      have heq : parseComps p.data = parseComps r.data ++ rem :=
        (stripPrefComps_eq_some_iff _ _ _).mp hs
      have hproot : parseComps p.data = Comp.rootDir :: namedOf p.data :=
        parseComps_rooted p.data hhead
      rw [hfp]
      cases hr : parseComps r.data with
      | nil =>
        have hrem : rem = Comp.rootDir :: namedOf p.data := by
          rw [hr, List.nil_append] at heq
          rw [← heq, hproot]
        subst hrem
        rw [joinComps_root]
        unfold AaaExecutor.make_path_relative
        have habs2 : isRelativeL (String.mk ('/' :: joinNamed (namedOf p.data))).data
            = false := by
          show isRelativeL ('/' :: joinNamed (namedOf p.data)) = false
          unfold isRelativeL
          simp
        have hparse2 : parseComps (String.mk ('/' :: joinNamed (namedOf p.data))).data
            = Comp.rootDir :: namedOf p.data := by
          show parseComps ('/' :: joinNamed (namedOf p.data)) = _
          exact parse_join_root _ (namedOf_all_named p.data)
        have hs2 : stripPrefComps (parseComps r.data)
            (parseComps (String.mk ('/' :: joinNamed (namedOf p.data))).data)
            = some (Comp.rootDir :: namedOf p.data) := by
          rw [hr, hparse2]
          rfl
        simp only [habs2, Bool.false_eq_true, if_false, hs2]
        rw [joinComps_root]
      | cons x xs =>
        have hall : rem.all namedComp = true := by
          have hx2 : xs ++ rem = namedOf p.data := by
            rw [hr] at heq
            rw [hproot] at heq
            rw [List.cons_append] at heq
            injection heq with e1 e2
            exact e2.symm
          have h2 := namedOf_all_named p.data
          rw [← hx2, List.all_append, Bool.and_eq_true] at h2
          exact h2.2
        have hjc : joinComps rem = joinNamed rem := by
          cases hrm : rem with
          | nil => rfl
          | cons c cs2 =>
            cases c with
            | rootDir =>
              rw [hrm, List.all_cons] at hall
              simp [namedComp] at hall
            | curDir => rfl
            | parentDir => rfl
            | normal l => rfl
        rw [hjc]
        exact mpr_relative self (String.mk (joinNamed rem)) r
          (joinNamed_relative rem hall)

/-- C5: relativization returns a relative path unchanged, strips a rooted
worktree prefix together with its separator from a cleanly decomposed
absolute path, and returns an absolute path unchanged when its components
do not extend the root's components. -/
theorem claim_c5 (self : AaaExecutor) (p r : String) :
    (isRelativeL p.data = true → self.make_path_relative p r = p) ∧
    (∀ rest : List Char, p.data = r.data ++ '/' :: rest → r.data.head? = some '/' →
       cleanRel rest = true → self.make_path_relative p r = String.mk rest) ∧
    (isRelativeL p.data = false →
       (∀ c, parseComps p.data ≠ parseComps r.data ++ c) →
       self.make_path_relative p r = p) := by
  refine ⟨mpr_relative self p r, ?_, mpr_not_pref self p r⟩
  intro rest hdecomp hr hc
  have hp : p = String.mk (r.data ++ '/' :: rest) := by
    cases p with
    | mk d =>
      have hd : d = r.data ++ '/' :: rest := hdecomp
      rw [hd]
  rw [hp]
  exact mpr_clean_decomp self r rest hr hc

/-- Witness for C5 on the three concrete cases. -/
theorem claim_c5_witness :
    AaaExecutor.new.make_path_relative "src/main.x" "/tmp/wt" = "src/main.x" ∧
    AaaExecutor.new.make_path_relative "/tmp/wt/src/main.x" "/tmp/wt" = "src/main.x" ∧
    AaaExecutor.new.make_path_relative "/etc/passwd" "/tmp/wt" = "/etc/passwd" := by
  refine ⟨(claim_c5 AaaExecutor.new "src/main.x" "/tmp/wt").1 (by decide), ?_, ?_⟩
  · exact (claim_c5 AaaExecutor.new "/tmp/wt/src/main.x" "/tmp/wt").2.1
      ("src/main.x".data) (by decide) (by decide) (by decide)
  · refine (claim_c5 AaaExecutor.new "/etc/passwd" "/tmp/wt").2.2 (by decide) ?_
    intro c h
    have hP : parseComps ("/etc/passwd".data)
        = [Comp.rootDir, Comp.normal "etc".data, Comp.normal "passwd".data] := by decide
    have hR : parseComps ("/tmp/wt".data)
        = [Comp.rootDir, Comp.normal "tmp".data, Comp.normal "wt".data] := by decide
    rw [hP, hR] at h
    have h1 := congrArg (fun l => l.get? 1) h
    simp at h1

/-- C6: relativization is the identity on relative paths and on paths not
under the root, maps a root-prefixed path to the stripped remainder, and
is idempotent. -/
theorem claim_c6 (self : AaaExecutor) (p r root : String) :
    ((isRelativeL p.data = true ∨ (∀ c, parseComps p.data ≠ parseComps r.data ++ c)) →
       self.make_path_relative p r = p) ∧
    (root.data.head? = some '/' →
       self.make_path_relative (String.mk (root.data ++ '/' :: "src/main.x".data)) root
         = "src/main.x") ∧
    self.make_path_relative (self.make_path_relative p r) r
      = self.make_path_relative p r := by
  refine ⟨?_, ?_, mpr_idem self p r⟩
  · intro h
    rcases h with h | h
    · exact mpr_relative self p r h
    · by_cases hrel : isRelativeL p.data = true
      · exact mpr_relative self p r hrel
      · have h1f : isRelativeL p.data = false := by
          cases hb : isRelativeL p.data
          · rfl
          · exact absurd hb hrel
        exact mpr_not_pref self p r h1f h
  · intro hr
    exact mpr_clean_decomp self root ("src/main.x".data) hr (by decide)

/-- Witness for C6 on concrete fixed points and a concrete strip. -/
theorem claim_c6_witness :
    AaaExecutor.new.make_path_relative "docs/readme.md" "/home/wt" = "docs/readme.md" ∧
    AaaExecutor.new.make_path_relative "/home/wt/src/main.x" "/home/wt" = "src/main.x" := by
  constructor
  · exact (claim_c6 AaaExecutor.new "docs/readme.md" "/home/wt" "/home/wt").1
      (Or.inl (by decide))
  · have h := (claim_c6 AaaExecutor.new "x" "y" "/home/wt").2.1 (by decide)
    have e : String.mk ("/home/wt".data ++ '/' :: "src/main.x".data)
        = "/home/wt/src/main.x" := by decide
    rw [e] at h
    exact h

/-! ### Invocation building -/

/-- Modelled from the spec: the task record consumed by task lookup, with
a `title` and an optional `description` (the `Task` model lives outside
the sources covered here). -/
structure Task where
  title : String
  description : Option String
deriving DecidableEq

/-- Modelled from the spec: the process launcher accepts a command name,
an ordered list of arguments, a working directory, environment variable
overrides, and optional piped standard-input text (the `CommandRunner`
builder lives outside the sources covered here). -/
structure CommandRunner where
  cmd : Option String
  args : List String
  workingDir : Option String
  envVars : List (String × String)
  stdinData : Option String
deriving DecidableEq

/-- Modelled from the spec: `CommandRunner::new` starts from an empty
invocation. -/
def CommandRunner.new : CommandRunner :=
  { cmd := none, args := [], workingDir := none, envVars := [], stdinData := none }

/-- Modelled from the spec: set the command name. -/
def CommandRunner.command (c : CommandRunner) (name : String) : CommandRunner :=
  { c with cmd := some name }

/-- Modelled from the spec: append one argument. -/
def CommandRunner.arg (c : CommandRunner) (a : String) : CommandRunner :=
  { c with args := c.args ++ [a] }

/-- Modelled from the spec: set the working directory. -/
def CommandRunner.working_dir (c : CommandRunner) (d : String) : CommandRunner :=
  { c with workingDir := some d }

/-- Modelled from the spec: record one environment variable override. -/
def CommandRunner.env (c : CommandRunner) (k v : String) : CommandRunner :=
  { c with envVars := c.envVars ++ [(k, v)] }

/-- Modelled from the spec: set the piped standard-input text. -/
def CommandRunner.stdin (c : CommandRunner) (s : String) : CommandRunner :=
  { c with stdinData := some s }

/-- The problem statement synthesized in `AaaExecutor::spawn` from the
task title and optional description. -/
def problem_statement (task : Task) : String :=
  match task.description with
  | some task_description =>
    "Task: " ++ task.title ++ " - Description: " ++ task_description ++
      " - Please help me implement this task in the codebase. Analyze the current code structure and make the necessary changes to fulfill the requirements."
  | none =>
    "Task: " ++ task.title ++
      " - Please help me implement this task in the codebase. Analyze the current code structure and make the necessary changes to fulfill the requirements."

/-- The invocation built in `AaaExecutor::spawn` for a new task. -/
def AaaExecutor.spawn_command (self : AaaExecutor) (task : Task)
    (worktree_path : String) : CommandRunner :=
  CommandRunner.new.command self.command
    |>.arg "--workspace"
    |>.arg worktree_path
    |>.arg "--problem-statement"
    |>.arg (problem_statement task)
    |>.arg "--minimize-stdout-logs"
    |>.working_dir worktree_path
    |>.env "NODE_NO_WARNINGS" "1"

/-- The invocation built in `AaaExecutor::spawn_followup` for a follow-up
turn. -/
def AaaExecutor.spawn_followup_command (self : AaaExecutor) (prompt : String)
    (worktree_path : String) : CommandRunner :=
  CommandRunner.new.command self.command
    |>.arg "--workspace"
    |>.arg worktree_path
    |>.arg "--minimize-stdout-logs"
    |>.stdin prompt
    |>.working_dir worktree_path
    |>.env "NODE_NO_WARNINGS" "1"

/-- C9: the new-task invocation carries the workspace, problem-statement
and minimize flags with the worktree as working directory, the problem
statement combines the title with the description exactly when present,
and the follow-up invocation carries the same workspace and minimize
flags, no problem-statement flag, and delivers the prompt on standard
input. -/
theorem claim_c9 (self : AaaExecutor) (task : Task) (worktree_path prompt : String) :
    (self.spawn_command task worktree_path).args
      = ["--workspace", worktree_path, "--problem-statement",
         problem_statement task, "--minimize-stdout-logs"] ∧
    (self.spawn_command task worktree_path).workingDir = some worktree_path ∧
    (∀ d, task.description = some d →
       problem_statement task
         = "Task: " ++ task.title ++ " - Description: " ++ d ++
           " - Please help me implement this task in the codebase. Analyze the current code structure and make the necessary changes to fulfill the requirements.") ∧
    (task.description = none →
       problem_statement task
         = "Task: " ++ task.title ++
           " - Please help me implement this task in the codebase. Analyze the current code structure and make the necessary changes to fulfill the requirements.") ∧
    (self.spawn_followup_command prompt worktree_path).args
      = ["--workspace", worktree_path, "--minimize-stdout-logs"] ∧
    (self.spawn_followup_command prompt worktree_path).stdinData = some prompt ∧
    (self.spawn_followup_command prompt worktree_path).workingDir = some worktree_path := by
  refine ⟨rfl, rfl, ?_, ?_, rfl, rfl, rfl⟩
  · intro d hd
    unfold problem_statement
    rw [hd]
  · intro hd
    unfold problem_statement
    rw [hd]

/-- Witness for C9 at a concrete task with a description. -/
theorem claim_c9_witness :
    (AaaExecutor.new.spawn_command { title := "T", description := some "D" } "/wt").args
      = ["--workspace", "/wt", "--problem-statement",
         problem_statement { title := "T", description := some "D" },
         "--minimize-stdout-logs"] ∧
    problem_statement { title := "T", description := some "D" }
      = "Task: T - Description: D - Please help me implement this task in the codebase. Analyze the current code structure and make the necessary changes to fulfill the requirements." := by
  constructor
  · exact (claim_c9 AaaExecutor.new { title := "T", description := some "D" } "/wt" "p").1
  · have h := (claim_c9 AaaExecutor.new { title := "T", description := some "D" }
      "/wt" "p").2.2.1 "D" rfl
    rw [h]
    decide

end Aaa
